import Mathlib

/-!
Verification of the pixel-art block-quantization filter (`filter.py`).

The grid is embedded as a list of rows of exact rationals; Python/NumPy
floating-point arithmetic is modelled exactly over `ℚ` (every quantity the
program computes — `255 / gradations`, floor divisions, `level * gradation / 3`
— is a rational of the inputs).  Fallible behaviour (Python exceptions) is
modelled with `Except PyError`.
-/

set_option autoImplicit false

section PixelArt

attribute [local semireducible] Rat.add Rat.mul Rat.inv Rat.sub

/-- A decoded image: a list of rows of sample values. -/
abbrev Grid := List (List ℚ)

/-- Value of the grid at row `r`, column `c` (0 outside the grid). -/
def cell (a : Grid) (r c : ℕ) : ℚ := (a.getD r []).getD c 0

/-- The shape of a grid: the list of its row lengths. -/
def shape (a : Grid) : List ℕ := a.map List.length

/-- Whether `a` is a rectangular `h × w` grid. -/
def isRect (a : Grid) (h w : ℕ) : Bool :=
  a.length == h && a.all (fun row => row.length == w)

/-- The generator object: `__init__` stores `step = pixel_step` and
`gradation = 255 / gradations`. -/
structure PixelArtGenerator where
  step : ℕ
  gradation : ℚ
deriving DecidableEq, Repr

/-- Constructor `PixelArtGenerator(gradations, pixel_step)` for `gradations ≠ 0`
(the zero case raises `ZeroDivisionError` and is handled in `runProgram`). -/
def PixelArtGenerator.init (gradations pixel_step : ℕ) : PixelArtGenerator :=
  ⟨pixel_step, 255 / (gradations : ℚ)⟩

/-- Sum of the clipped slice `a[i : i+n, j : j+n]`, i.e.
`np.sum(img_array[i : i+step, j : j+step])`: slicing clips at the ends. -/
def blockSum (a : Grid) (i j n : ℕ) : ℚ :=
  (((a.drop i).take n).map (fun row => ((row.drop j).take n).sum)).sum

/-- Method `get_pixel_color`: the slice sum floor-divided by `step ** 2`. -/
def PixelArtGenerator.get_pixel_color (t : PixelArtGenerator) (a : Grid)
    (i j : ℕ) : ℚ :=
  ((⌊blockSum a i j t.step / ((t.step : ℚ) ^ 2)⌋ : ℤ) : ℚ)

/-- Write `v` at positions `j ≤ p < j + n` of a row; `c` is the index of the
first element of the remaining list. -/
def writeRow : List ℚ → ℕ → ℕ → ℕ → ℚ → List ℚ
  | [], _, _, _, _ => []
  | x :: xs, c, j, n, v =>
      (if j ≤ c ∧ c < j + n then v else x) :: writeRow xs (c + 1) j n v

/-- Write `v` on columns `j ≤ c < j + n` of rows `i ≤ r < i + n`; `r` is the
index of the first remaining row. -/
def writeRows : Grid → ℕ → ℕ → ℕ → ℕ → ℚ → Grid
  | [], _, _, _, _, _ => []
  | row :: rows, r, i, j, n, v =>
      (if i ≤ r ∧ r < i + n then writeRow row 0 j n v else row)
        :: writeRows rows (r + 1) i j n v

/-- Method `set_pixel_color`: the slice assignment
`img_array[i : i+step, j : j+step] = int(s // gradation) * gradation / 3`.
Python's `s // g` is `⌊s / g⌋` (an integral float), so `int` of it is exact. -/
def PixelArtGenerator.set_pixel_color (t : PixelArtGenerator) (a : Grid)
    (i j : ℕ) (s : ℚ) : Grid :=
  writeRows a 0 i j t.step (((⌊s / t.gradation⌋ : ℤ) : ℚ) * t.gradation / 3)

/-- Number of iterations of Python's `range(0, n, step)` for `step > 0`. -/
def numBlocks (n step : ℕ) : ℕ := (n + step - 1) / step

/-- Python's `range(0, n, step)` as a list, for `step > 0`. -/
def pyRange (n step : ℕ) : List ℕ :=
  (List.range (numBlocks n step)).map (fun b => b * step)

/-- The nested loops of `generate`, once the height `h` and width `w` have been
read: per block origin, sample then overwrite. -/
def PixelArtGenerator.generateCore (t : PixelArtGenerator) (a : Grid)
    (h w : ℕ) : Grid :=
  (pyRange h t.step).foldl
    (fun acc i =>
      (pyRange w t.step).foldl
        (fun acc2 j => t.set_pixel_color acc2 i j (t.get_pixel_color acc2 i j))
        acc)
    a

/-- Python exceptions the program can raise. -/
inductive PyError where
  | zeroDivision
  | valueError
  | indexError
deriving DecidableEq, Repr

instance {ε α : Type} [DecidableEq ε] [DecidableEq α] : DecidableEq (Except ε α)
  | .error e, .error f =>
      decidable_of_iff (e = f) ⟨fun h => by rw [h], fun h => by injection h⟩
  | .ok x, .ok y =>
      decidable_of_iff (x = y) ⟨fun h => by rw [h], fun h => by injection h⟩
  | .error _, .ok _ => isFalse fun h => Except.noConfusion h
  | .ok _, .error _ => isFalse fun h => Except.noConfusion h

/-- Method `generate`: reads `h = len(img_array)` and `w = len(img_array[1])`
(an `IndexError` when there is no row 1), then loops with `range(0, h, step)`
(a `ValueError` when `step = 0`). -/
def PixelArtGenerator.generate (t : PixelArtGenerator) (a : Grid) :
    Except PyError Grid :=
  if a.length < 2 then .error .indexError
  else if t.step = 0 then .error .valueError
  else .ok (t.generateCore a a.length (a.getD 1 []).length)

/-- The whole pipeline on a decoded grid: construct the generator
(`255 / gradations` raises `ZeroDivisionError` when `gradations = 0`), then run
`generate`. -/
def runProgram (gradations pixel_step : ℕ) (a : Grid) : Except PyError Grid :=
  if gradations = 0 then .error .zeroDivision
  else (PixelArtGenerator.init gradations pixel_step).generate a

/-- Variant of `generate` that reads the width from row 0 instead of row 1
(spec-equivalence target for the `len(img_array[1])` choice). -/
def PixelArtGenerator.generateAlt (t : PixelArtGenerator) (a : Grid) :
    Except PyError Grid :=
  if a.length < 2 then .error .indexError
  else if t.step = 0 then .error .valueError
  else .ok (t.generateCore a a.length (a.getD 0 []).length)

/-- One iteration of the loop body of `generate`: sample block `p`, then
overwrite it. -/
def procOne (t : PixelArtGenerator) (a : Grid) (p : ℕ × ℕ) : Grid :=
  t.set_pixel_color a p.1 p.2 (t.get_pixel_color a p.1 p.2)

/-- The block origins visited by `generate`, in row-major order. -/
def origins (h w n : ℕ) : List (ℕ × ℕ) :=
  (pyRange h n).flatMap (fun i => (pyRange w n).map (fun j => (i, j)))

/-- Whether cell `(r, c)` lies in the `n × n` region with top-left corner `p`. -/
def inRegion (n : ℕ) (p : ℕ × ℕ) (r c : ℕ) : Prop :=
  p.1 ≤ r ∧ r < p.1 + n ∧ p.2 ≤ c ∧ c < p.2 + n

instance (n : ℕ) (p : ℕ × ℕ) (r c : ℕ) : Decidable (inRegion n p r c) := by
  unfold inRegion; infer_instance

/-- All sample values of the grid lie in `[0, g)`. -/
def valsIn (a : Grid) (g : ℚ) : Prop := ∀ row ∈ a, ∀ x ∈ row, 0 ≤ x ∧ x < g

instance (a : Grid) (g : ℚ) : Decidable (valsIn a g) := by
  unfold valsIn; infer_instance

/-! Basic lemmas on the row/region writers. -/

theorem writeRow_length (row : List ℚ) (c j n : ℕ) (v : ℚ) :
    (writeRow row c j n v).length = row.length := by
  induction row generalizing c with
  | nil => rfl
  | cons x xs ih => simp [writeRow, ih]

theorem writeRow_getD (row : List ℚ) (c j n k : ℕ) (v : ℚ) :
    (writeRow row c j n v).getD k 0 =
      if k < row.length ∧ j ≤ c + k ∧ c + k < j + n then v else row.getD k 0 := by
  induction row generalizing c k with
  | nil => simp [writeRow]
  | cons x xs ih =>
    cases k with
    | zero =>
      simp only [writeRow, List.getD_cons_zero, List.length_cons]
      split_ifs with h1 h2 h2 <;> first | rfl | omega
    | succ k =>
      simp only [writeRow, List.getD_cons_succ, List.length_cons, ih (c + 1) k]
      split_ifs with h1 h2 h2 <;> first | rfl | omega

theorem writeRow_mem {row : List ℚ} {c j n : ℕ} {v x : ℚ}
    (hx : x ∈ writeRow row c j n v) : x = v ∨ x ∈ row := by
  induction row generalizing c with
  | nil => simp [writeRow] at hx
  | cons y ys ih =>
    simp only [writeRow, List.mem_cons] at hx
    rcases hx with hx | hx
    · split at hx
      · exact Or.inl hx
      · exact Or.inr (by simp [hx])
    · rcases ih hx with h | h
      · exact Or.inl h
      · exact Or.inr (List.mem_cons_of_mem _ h)

theorem writeRows_length (a : Grid) (r i j n : ℕ) (v : ℚ) :
    (writeRows a r i j n v).length = a.length := by
  induction a generalizing r with
  | nil => rfl
  | cons row rows ih => simp [writeRows, ih]

theorem writeRows_getD (a : Grid) (r i j n k : ℕ) (v : ℚ) :
    (writeRows a r i j n v).getD k [] =
      if k < a.length ∧ i ≤ r + k ∧ r + k < i + n then writeRow (a.getD k []) 0 j n v
      else a.getD k [] := by
  induction a generalizing r k with
  | nil => simp [writeRows]
  | cons row rows ih =>
    cases k with
    | zero =>
      simp only [writeRows, List.getD_cons_zero, List.length_cons]
      split_ifs with h1 h2 h2 <;> first | rfl | omega
    | succ k =>
      simp only [writeRows, List.getD_cons_succ, List.length_cons, ih (r + 1) k]
      split_ifs with h1 h2 h2 <;> first | rfl | omega

theorem shape_writeRows (a : Grid) (r i j n : ℕ) (v : ℚ) :
    shape (writeRows a r i j n v) = shape a := by
  induction a generalizing r with
  | nil => rfl
  | cons row rows ih =>
    simp only [writeRows, shape, List.map_cons]
    rw [show (writeRows rows (r + 1) i j n v).map List.length = shape (writeRows rows (r + 1) i j n v) from rfl,
      ih (r + 1)]
    split_ifs with h
    · simp [writeRow_length, shape]
    · simp [shape]

theorem writeRows_mem {a : Grid} {r i j n : ℕ} {v : ℚ} {row' : List ℚ}
    (hrow : row' ∈ writeRows a r i j n v) {x : ℚ} (hx : x ∈ row') :
    x = v ∨ ∃ row ∈ a, x ∈ row := by
  induction a generalizing r with
  | nil => simp [writeRows] at hrow
  | cons row rows ih =>
    simp only [writeRows, List.mem_cons] at hrow
    rcases hrow with hrow | hrow
    · subst hrow
      split at hx
      · rcases writeRow_mem hx with h | h
        · exact Or.inl h
        · exact Or.inr ⟨row, List.mem_cons_self _ _, h⟩
      · exact Or.inr ⟨row, List.mem_cons_self _ _, hx⟩
    · rcases ih hrow with h | ⟨w, hw, hxw⟩
      · exact Or.inl h
      · exact Or.inr ⟨w, List.mem_cons_of_mem _ hw, hxw⟩

/-! Cell-level description of `set_pixel_color`. -/

theorem shape_set_pixel_color (t : PixelArtGenerator) (a : Grid) (i j : ℕ) (s : ℚ) :
    shape (t.set_pixel_color a i j s) = shape a :=
  shape_writeRows a 0 i j t.step _

theorem cell_set_pixel_color (t : PixelArtGenerator) (a : Grid) (i j r c : ℕ) (s : ℚ) :
    cell (t.set_pixel_color a i j s) r c =
      if r < a.length ∧ i ≤ r ∧ r < i + t.step ∧
          c < (a.getD r []).length ∧ j ≤ c ∧ c < j + t.step
      then ((⌊s / t.gradation⌋ : ℤ) : ℚ) * t.gradation / 3
      else cell a r c := by
  unfold PixelArtGenerator.set_pixel_color cell
  rw [writeRows_getD]
  split_ifs with h1 h2 h3
  · rw [writeRow_getD]
    split_ifs with h4 <;> first | rfl | omega
  · rw [writeRow_getD]
    split_ifs with h4 <;> first | rfl | omega
  · omega
  · rfl

/-! The `generate` loop seen as a fold over the visited block origins. -/

theorem generateCore_eq_foldl (t : PixelArtGenerator) (a : Grid) (h w : ℕ) :
    t.generateCore a h w = (origins h w t.step).foldl (procOne t) a := by
  unfold PixelArtGenerator.generateCore origins
  induction pyRange h t.step generalizing a with
  | nil => rfl
  | cons i l ih =>
    rw [List.foldl_cons, List.flatMap_cons, List.foldl_append, List.foldl_map, ih]
    rfl

theorem shape_procOne (t : PixelArtGenerator) (a : Grid) (p : ℕ × ℕ) :
    shape (procOne t a p) = shape a :=
  shape_set_pixel_color t a p.1 p.2 _

theorem shape_foldl (t : PixelArtGenerator) (L : List (ℕ × ℕ)) (a : Grid) :
    shape (L.foldl (procOne t) a) = shape a := by
  induction L generalizing a with
  | nil => rfl
  | cons p L ih => rw [List.foldl_cons, ih, shape_procOne]

theorem shape_getD (a : Grid) (r : ℕ) : (shape a).getD r 0 = (a.getD r []).length := by
  induction a generalizing r with
  | nil => simp [shape]
  | cons row rows ih =>
    cases r with
    | zero => rfl
    | succ r => simpa [shape] using ih r

theorem length_of_shape_eq {a b : Grid} (h : shape a = shape b) :
    a.length = b.length := by
  have h2 := congrArg List.length h
  simpa [shape] using h2

theorem rowlen_of_shape_eq {a b : Grid} (h : shape a = shape b) (r : ℕ) :
    (a.getD r []).length = (b.getD r []).length := by
  rw [← shape_getD, ← shape_getD, h]

theorem cell_procOne_notRegion (t : PixelArtGenerator) (a : Grid) (p : ℕ × ℕ)
    (r c : ℕ) (h : ¬ inRegion t.step p r c) : cell (procOne t a p) r c = cell a r c := by
  unfold procOne
  rw [cell_set_pixel_color]
  split_ifs with hc
  · exact absurd ⟨hc.2.1, hc.2.2.1, hc.2.2.2.2.1, hc.2.2.2.2.2⟩ h
  · rfl

theorem cell_foldl_frame (t : PixelArtGenerator) (L : List (ℕ × ℕ)) (a : Grid)
    (r c : ℕ) (h : ∀ p ∈ L, ¬ inRegion t.step p r c) :
    cell (L.foldl (procOne t) a) r c = cell a r c := by
  induction L generalizing a with
  | nil => rfl
  | cons p L ih =>
    rw [List.foldl_cons, ih _ (fun q hq => h q (List.mem_cons_of_mem _ hq)),
      cell_procOne_notRegion t a p r c (h p (List.mem_cons_self _ _))]

theorem cell_procOne_region (t : PixelArtGenerator) (a : Grid) (p : ℕ × ℕ)
    (r c : ℕ) (hr : r < a.length) (hc : c < (a.getD r []).length)
    (h : inRegion t.step p r c) :
    cell (procOne t a p) r c =
      ((⌊t.get_pixel_color a p.1 p.2 / t.gradation⌋ : ℤ) : ℚ) * t.gradation / 3 := by
  unfold procOne
  rw [cell_set_pixel_color, if_pos ⟨hr, h.1, h.2.1, hc, h.2.2.1, h.2.2.2⟩]

theorem cell_foldl_split (t : PixelArtGenerator) (L1 L2 : List (ℕ × ℕ))
    (p : ℕ × ℕ) (a : Grid) (r c : ℕ)
    (hnot : ∀ q ∈ L2, ¬ inRegion t.step q r c)
    (hr : r < a.length) (hc : c < (a.getD r []).length)
    (hreg : inRegion t.step p r c) :
    cell ((L1 ++ p :: L2).foldl (procOne t) a) r c =
      ((⌊t.get_pixel_color (L1.foldl (procOne t) a) p.1 p.2 / t.gradation⌋ : ℤ) : ℚ)
        * t.gradation / 3 := by
  rw [List.foldl_append, List.foldl_cons]
  have hsh : shape (L1.foldl (procOne t) a) = shape a := shape_foldl t L1 a
  have hr1 : r < (L1.foldl (procOne t) a).length := by
    rw [length_of_shape_eq hsh]; exact hr
  have hc1 : c < ((L1.foldl (procOne t) a).getD r []).length := by
    rw [rowlen_of_shape_eq hsh]; exact hc
  rw [cell_foldl_frame t L2 _ r c hnot, cell_procOne_region t _ p r c hr1 hc1 hreg]

/-! Range bounds for sampled brightness values. -/

theorem sum_le_len_mul {l : List ℚ} {g : ℚ} (h : ∀ x ∈ l, x ≤ g) :
    l.sum ≤ (l.length : ℚ) * g := by
  induction l with
  | nil => simp
  | cons x xs ih =>
    have h1 : x ≤ g := h x (List.mem_cons_self _ _)
    have h2 : xs.sum ≤ (xs.length : ℚ) * g :=
      ih (fun y hy => h y (List.mem_cons_of_mem _ hy))
    simp only [List.sum_cons, List.length_cons]
    push_cast
    linarith

theorem sum_lt_mul {l : List ℚ} {g : ℚ} {n : ℕ} (hg : 0 < g)
    (h : ∀ x ∈ l, 0 ≤ x ∧ x < g) (hlen : l.length ≤ n) (hn : 0 < n) :
    l.sum < (n : ℚ) * g := by
  cases l with
  | nil =>
    simp only [List.sum_nil]
    positivity
  | cons x xs =>
    have h1 := h x (List.mem_cons_self _ _)
    have h2 : xs.sum ≤ (xs.length : ℚ) * g :=
      sum_le_len_mul (fun y hy => (h y (List.mem_cons_of_mem _ hy)).2.le)
    have hxl : (xs.length : ℚ) + 1 ≤ (n : ℚ) := by
      exact_mod_cast by simpa using hlen
    simp only [List.sum_cons]
    nlinarith

theorem blockSum_nonneg {a : Grid} {g : ℚ} (hvals : valsIn a g) (i j n : ℕ) :
    0 ≤ blockSum a i j n := by
  unfold blockSum
  apply List.sum_nonneg
  intro y hy
  obtain ⟨row, hrow, rfl⟩ := List.mem_map.mp hy
  have hrowa : row ∈ a := List.mem_of_mem_drop (List.mem_of_mem_take hrow)
  apply List.sum_nonneg
  intro x hx
  exact (hvals row hrowa x (List.mem_of_mem_drop (List.mem_of_mem_take hx))).1

theorem blockSum_lt {a : Grid} {g : ℚ} {n : ℕ} (hg : 0 < g)
    (hvals : valsIn a g) (hn : 0 < n) (i j : ℕ) :
    blockSum a i j n < ((n : ℚ) ^ 2) * g := by
  have houter : ∀ y ∈ ((a.drop i).take n).map (fun row => ((row.drop j).take n).sum),
      0 ≤ y ∧ y < (n : ℚ) * g := by
    intro y hy
    obtain ⟨row, hrow, rfl⟩ := List.mem_map.mp hy
    have hrowa : row ∈ a := List.mem_of_mem_drop (List.mem_of_mem_take hrow)
    constructor
    · exact List.sum_nonneg fun x hx =>
        (hvals row hrowa x (List.mem_of_mem_drop (List.mem_of_mem_take hx))).1
    · refine sum_lt_mul hg
        (fun x hx => hvals row hrowa x (List.mem_of_mem_drop (List.mem_of_mem_take hx)))
        ?_ hn
      rw [List.length_take]
      exact min_le_left _ _
  have hlen : (((a.drop i).take n).map
      (fun row => ((row.drop j).take n).sum)).length ≤ n := by
    rw [List.length_map, List.length_take]
    exact min_le_left _ _
  unfold blockSum
  rw [show ((n : ℚ) ^ 2) * g = (n : ℚ) * ((n : ℚ) * g) by ring]
  exact sum_lt_mul (by positivity) houter hlen hn

theorem get_pixel_color_bounds (t : PixelArtGenerator) (a : Grid) (i j : ℕ)
    {g : ℚ} (hg : 0 < g) (hstep : 0 < t.step) (hvals : valsIn a g) :
    0 ≤ t.get_pixel_color a i j ∧ t.get_pixel_color a i j < g := by
  unfold PixelArtGenerator.get_pixel_color
  have hs2 : (0 : ℚ) < ((t.step : ℚ)) ^ 2 := by positivity
  have h0 : (0 : ℚ) ≤ blockSum a i j t.step / ((t.step : ℚ) ^ 2) :=
    div_nonneg (blockSum_nonneg hvals i j t.step) hs2.le
  constructor
  · have hfl : (0 : ℤ) ≤ ⌊blockSum a i j t.step / ((t.step : ℚ) ^ 2)⌋ :=
      Int.le_floor.mpr (by exact_mod_cast h0)
    exact_mod_cast hfl
  · have hlt : blockSum a i j t.step / ((t.step : ℚ) ^ 2) < g := by
      rw [div_lt_iff₀ hs2]
      calc blockSum a i j t.step < ((t.step : ℚ) ^ 2) * g :=
            blockSum_lt hg hvals hstep i j
        _ = g * (t.step : ℚ) ^ 2 := by ring
    calc ((⌊blockSum a i j t.step / ((t.step : ℚ) ^ 2)⌋ : ℤ) : ℚ)
        ≤ blockSum a i j t.step / ((t.step : ℚ) ^ 2) := Int.floor_le _
      _ < g := hlt

theorem floor_div_self_eq_zero {s g : ℚ} (hg : 0 < g) (h0 : 0 ≤ s) (h1 : s < g) :
    ⌊s / g⌋ = 0 := by
  rw [Int.floor_eq_zero_iff]
  exact Set.mem_Ico.mpr ⟨div_nonneg h0 hg.le, (div_lt_one hg).mpr h1⟩

/-! Under the invariant that all values lie in `[0, gradation)`, every block
write during `generate` writes the value 0, and the invariant is preserved. -/

theorem procOne_writes_zero (t : PixelArtGenerator) (a : Grid) (p : ℕ × ℕ)
    (hg : 0 < t.gradation) (hstep : 0 < t.step) (hvals : valsIn a t.gradation) :
    ⌊t.get_pixel_color a p.1 p.2 / t.gradation⌋ = 0 := by
  obtain ⟨h0, h1⟩ := get_pixel_color_bounds t a p.1 p.2 hg hstep hvals
  exact floor_div_self_eq_zero hg h0 h1

theorem valsIn_procOne (t : PixelArtGenerator) (a : Grid) (p : ℕ × ℕ)
    (hg : 0 < t.gradation) (hstep : 0 < t.step) (hvals : valsIn a t.gradation) :
    valsIn (procOne t a p) t.gradation := by
  intro row hrow x hx
  unfold procOne PixelArtGenerator.set_pixel_color at hrow
  rcases writeRows_mem hrow hx with hxv | ⟨row0, hrow0, hxrow0⟩
  · rw [hxv, procOne_writes_zero t a p hg hstep hvals]
    norm_num
    exact hg
  · exact hvals row0 hrow0 x hxrow0

theorem valsIn_foldl (t : PixelArtGenerator) (L : List (ℕ × ℕ)) (a : Grid)
    (hg : 0 < t.gradation) (hstep : 0 < t.step) (hvals : valsIn a t.gradation) :
    valsIn (L.foldl (procOne t) a) t.gradation := by
  induction L generalizing a with
  | nil => exact hvals
  | cons p L ih =>
    exact ih (procOne t a p) (valsIn_procOne t a p hg hstep hvals)

/-! Membership, distinctness, disjointness and coverage of the block origins. -/

theorem mem_pyRange {n s x : ℕ} :
    x ∈ pyRange n s ↔ ∃ b, b < numBlocks n s ∧ x = b * s := by
  unfold pyRange
  simp [List.mem_map, List.mem_range, eq_comm]

theorem pyRange_nodup {n s : ℕ} (hs : 0 < s) : (pyRange n s).Nodup := by
  unfold pyRange
  refine List.Nodup.map ?_ (List.nodup_range _)
  intro b1 b2 hb
  exact Nat.eq_of_mul_eq_mul_right hs hb

theorem origins_nodup {h w s : ℕ} (hs : 0 < s) : (origins h w s).Nodup := by
  unfold origins
  rw [List.nodup_flatMap]
  constructor
  · intro i _
    refine List.Nodup.map ?_ (pyRange_nodup hs)
    intro j1 j2 hj
    simpa using hj
  · refine List.Pairwise.imp ?_ (pyRange_nodup hs)
    intro i1 i2 hne p hp1 hp2
    obtain ⟨j1, _, hj1⟩ := List.mem_map.mp hp1
    obtain ⟨j2, _, hj2⟩ := List.mem_map.mp hp2
    rw [← hj2] at hj1
    exact hne (congrArg Prod.fst hj1)

theorem mem_origins {h w s : ℕ} {p : ℕ × ℕ} :
    p ∈ origins h w s ↔ p.1 ∈ pyRange h s ∧ p.2 ∈ pyRange w s := by
  unfold origins
  constructor
  · intro hp
    obtain ⟨i, hi, hp2⟩ := List.mem_flatMap.mp hp
    obtain ⟨j, hj, hpe⟩ := List.mem_map.mp hp2
    rw [← hpe]
    exact ⟨hi, hj⟩
  · rintro ⟨h1, h2⟩
    exact List.mem_flatMap.mpr ⟨p.1, h1, List.mem_map.mpr ⟨p.2, h2, rfl⟩⟩

theorem origins_split {h w s : ℕ} (hs : 0 < s) {p : ℕ × ℕ}
    (hp : p ∈ origins h w s) :
    ∃ L1 L2, origins h w s = L1 ++ p :: L2 ∧
      ∀ q ∈ L2, q ≠ p ∧ q ∈ origins h w s := by
  obtain ⟨L1, L2, hsplit⟩ := List.append_of_mem hp
  refine ⟨L1, L2, hsplit, fun q hq => ⟨?_, ?_⟩⟩
  · have hnd := origins_nodup (h := h) (w := w) hs
    rw [hsplit] at hnd
    have hpl2 : p ∉ L2 :=
      (List.nodup_cons.mp ((List.sublist_append_right L1 _).nodup hnd)).1
    intro he
    exact hpl2 (he ▸ hq)
  · rw [hsplit]
    exact List.mem_append_right _ (List.mem_cons_of_mem _ hq)

theorem div_of_inBlock {s b r : ℕ} (h1 : b * s ≤ r) (h2 : r < b * s + s) :
    r / s = b :=
  Nat.div_eq_of_lt_le h1 (by rw [Nat.succ_mul]; exact h2)

theorem origins_regions_disjoint {h w s : ℕ} {p q : ℕ × ℕ}
    (hp : p ∈ origins h w s) (hq : q ∈ origins h w s) (hne : q ≠ p) (r c : ℕ)
    (hr : inRegion s p r c) : ¬ inRegion s q r c := by
  intro hr2
  apply hne
  obtain ⟨hp1, hp2⟩ := mem_origins.mp hp
  obtain ⟨hq1, hq2⟩ := mem_origins.mp hq
  obtain ⟨b1, _, hb1⟩ := mem_pyRange.mp hp1
  obtain ⟨b2, _, hb2⟩ := mem_pyRange.mp hp2
  obtain ⟨c1, _, hc1⟩ := mem_pyRange.mp hq1
  obtain ⟨c2, _, hc2⟩ := mem_pyRange.mp hq2
  obtain ⟨ha1, ha2, ha3, ha4⟩ := hr
  obtain ⟨hd1, hd2, hd3, hd4⟩ := hr2
  rw [hb1] at ha1 ha2
  rw [hb2] at ha3 ha4
  rw [hc1] at hd1 hd2
  rw [hc2] at hd3 hd4
  have e1 : b1 = c1 := by
    rw [← div_of_inBlock ha1 ha2, ← div_of_inBlock hd1 hd2]
  have e2 : b2 = c2 := by
    rw [← div_of_inBlock ha3 ha4, ← div_of_inBlock hd3 hd4]
  have hqe : q = (c1 * s, c2 * s) := by rw [← hc1, ← hc2]
  have hpe : p = (b1 * s, b2 * s) := by rw [← hb1, ← hb2]
  rw [hqe, hpe, e1, e2]

theorem div_mul_mem_pyRange {n s r : ℕ} (hs : 0 < s) (hr : r < n) :
    (r / s) * s ∈ pyRange n s := by
  refine mem_pyRange.mpr ⟨r / s, ?_, rfl⟩
  unfold numBlocks
  have h1 : r / s ≤ (n - 1) / s := Nat.div_le_div_right (by omega)
  have h2 : n + s - 1 = (n - 1) + s := by omega
  rw [h2, Nat.add_div_right _ hs]
  omega

theorem inRegion_own_block {s : ℕ} (r c : ℕ) (hs : 0 < s) :
    inRegion s ((r / s) * s, (c / s) * s) r c := by
  refine ⟨Nat.div_mul_le_self r s, ?_, Nat.div_mul_le_self c s, ?_⟩
  · have h2 := (Nat.div_lt_iff_lt_mul hs).mp (Nat.lt_succ_self (r / s))
    rw [Nat.succ_mul] at h2
    exact h2
  · have h2 := (Nat.div_lt_iff_lt_mul hs).mp (Nat.lt_succ_self (c / s))
    rw [Nat.succ_mul] at h2
    exact h2

/-! Extensionality and replicate helpers. -/

theorem getD_mem {α : Type} {l : List α} {k : ℕ} (d : α) (hk : k < l.length) :
    l.getD k d ∈ l := by
  induction l generalizing k with
  | nil => simp at hk
  | cons x xs ih =>
    cases k with
    | zero => simp
    | succ k =>
      simp only [List.getD_cons_succ]
      exact List.mem_cons_of_mem _ (ih (by simpa using hk))

theorem replicate_getD {α : Type} (x d : α) (n k : ℕ) :
    (List.replicate n x).getD k d = if k < n then x else d := by
  induction n generalizing k with
  | zero => simp
  | succ n ih =>
    cases k with
    | zero => simp [List.replicate_succ]
    | succ k =>
      rw [List.replicate_succ, List.getD_cons_succ, ih]
      split_ifs with hk hk2 <;> first | rfl | omega

theorem row_ext {xs ys : List ℚ} (hlen : xs.length = ys.length)
    (h : ∀ c, c < xs.length → xs.getD c 0 = ys.getD c 0) : xs = ys := by
  induction xs generalizing ys with
  | nil =>
    cases ys with
    | nil => rfl
    | cons y ys => simp at hlen
  | cons x xs ih =>
    cases ys with
    | nil => simp at hlen
    | cons y ys =>
      have hx : x = y := h 0 (by simp)
      have ht : xs = ys := by
        refine ih (by simpa using hlen) fun c hc => ?_
        simpa using h (c + 1) (by simpa using Nat.succ_lt_succ hc)
      rw [hx, ht]

theorem grid_ext {a b : Grid} (hshape : shape a = shape b)
    (h : ∀ r c, r < a.length → c < (a.getD r []).length → cell a r c = cell b r c) :
    a = b := by
  induction a generalizing b with
  | nil =>
    cases b with
    | nil => rfl
    | cons row' rows' => simp [shape] at hshape
  | cons row rows ih =>
    cases b with
    | nil => simp [shape] at hshape
    | cons row' rows' =>
      simp only [shape, List.map_cons, List.cons.injEq] at hshape
      have hrow : row = row' := by
        refine row_ext hshape.1 fun c hc => ?_
        simpa [cell] using h 0 c (by simp) (by simpa using hc)
      have hrows : rows = rows' := by
        refine ih hshape.2 fun r c hr hc => ?_
        simpa [cell] using h (r + 1) c (by simpa using Nat.succ_lt_succ hr) (by simpa using hc)
      rw [hrow, hrows]

theorem isRect_iff {a : Grid} {h w : ℕ} :
    isRect a h w = true ↔ a.length = h ∧ ∀ row ∈ a, row.length = w := by
  unfold isRect
  simp [List.all_eq_true]

theorem shape_of_isRect {a : Grid} {h w : ℕ} (hr : isRect a h w = true) :
    shape a = List.replicate h w := by
  obtain ⟨hlen, hall⟩ := isRect_iff.mp hr
  refine List.eq_replicate_iff.mpr ⟨by simpa [shape] using hlen, ?_⟩
  intro b hb
  obtain ⟨row, hrow, rfl⟩ := List.mem_map.mp hb
  exact hall row hrow

/-! The clipped slice sum written as an explicit double sum over cell indices. -/

theorem list_sum_eq_range_getD (l : List ℚ) :
    l.sum = ∑ k ∈ Finset.range l.length, l.getD k 0 := by
  induction l with
  | nil => simp
  | cons x xs ih =>
    rw [List.sum_cons, List.length_cons, Finset.sum_range_succ']
    simp only [List.getD_cons_succ, List.getD_cons_zero]
    rw [← ih]
    ring

theorem getD_drop {α : Type} (l : List α) (d : α) (i k : ℕ) :
    (l.drop i).getD k d = l.getD (i + k) d := by
  induction l generalizing i with
  | nil => simp
  | cons x xs ih =>
    cases i with
    | zero => simp
    | succ i => rw [List.drop_succ_cons, ih, Nat.succ_add, List.getD_cons_succ]

theorem getD_take {α : Type} (l : List α) (d : α) {n k : ℕ} (h : k < n) :
    (l.take n).getD k d = l.getD k d := by
  induction l generalizing n k with
  | nil => simp
  | cons x xs ih =>
    cases n with
    | zero => omega
    | succ n =>
      cases k with
      | zero => simp
      | succ k =>
        rw [List.take_succ_cons, List.getD_cons_succ, List.getD_cons_succ]
        exact ih (by omega)

theorem map_getD {α β : Type} (f : α → β) (l : List α) (d : α) (db : β) {k : ℕ}
    (h : k < l.length) : (l.map f).getD k db = f (l.getD k d) := by
  induction l generalizing k with
  | nil => simp at h
  | cons x xs ih =>
    cases k with
    | zero => simp
    | succ k =>
      rw [List.map_cons, List.getD_cons_succ, List.getD_cons_succ]
      exact ih (by simpa using h)

theorem slice_sum (l : List ℚ) (j n : ℕ) :
    ((l.drop j).take n).sum = ∑ c ∈ Finset.Ico j (min l.length (j + n)), l.getD c 0 := by
  rw [list_sum_eq_range_getD]
  have hlen : ((l.drop j).take n).length = min n (l.length - j) := by
    rw [List.length_take, List.length_drop]
  rw [hlen, Finset.sum_Ico_eq_sum_range]
  have hm : min l.length (j + n) - j = min n (l.length - j) := by omega
  rw [hm]
  apply Finset.sum_congr rfl
  intro k hk
  rw [Finset.mem_range] at hk
  rw [getD_take _ _ (show k < n by omega), getD_drop]

theorem blockSum_eq_finsetSum (a : Grid) (i j n : ℕ) :
    blockSum a i j n = ∑ r ∈ Finset.Ico i (min a.length (i + n)),
      ∑ c ∈ Finset.Ico j (min (a.getD r []).length (j + n)), cell a r c := by
  unfold blockSum
  rw [list_sum_eq_range_getD]
  have hlen : (((a.drop i).take n).map
      (fun row => ((row.drop j).take n).sum)).length = min n (a.length - i) := by
    rw [List.length_map, List.length_take, List.length_drop]
  rw [hlen, Finset.sum_Ico_eq_sum_range]
  have hm : min a.length (i + n) - i = min n (a.length - i) := by omega
  rw [hm]
  apply Finset.sum_congr rfl
  intro k hk
  rw [Finset.mem_range] at hk
  have hk2 : k < ((a.drop i).take n).length := by
    rw [List.length_take, List.length_drop]
    omega
  rw [map_getD _ _ [] 0 hk2, getD_take _ _ (show k < n by omega), getD_drop]
  exact slice_sum (a.getD (i + k) []) j n

/-! When every sample value lies in `[0, gradation)`, a full pass writes 0 into
every covered cell, so the pass sends a rectangular grid to the zero grid. -/

theorem isRect_replicate (hh ww : ℕ) :
    isRect (List.replicate hh (List.replicate ww (0 : ℚ))) hh ww = true := by
  rw [isRect_iff]
  refine ⟨List.length_replicate .., fun row hrow => ?_⟩
  rw [List.eq_of_mem_replicate hrow]
  exact List.length_replicate ..

theorem valsIn_replicate_zero {g : ℚ} (hg : 0 < g) (hh ww : ℕ) :
    valsIn (List.replicate hh (List.replicate ww (0 : ℚ))) g := by
  intro row hrow x hx
  rw [List.eq_of_mem_replicate hrow] at hx
  rw [List.eq_of_mem_replicate hx]
  exact ⟨le_refl 0, hg⟩

theorem generateCore_zero (t : PixelArtGenerator) (a : Grid) (hh ww : ℕ)
    (hg : 0 < t.gradation) (hstep : 0 < t.step)
    (hrect : isRect a hh ww = true) (hvals : valsIn a t.gradation) :
    t.generateCore a hh ww = List.replicate hh (List.replicate ww (0 : ℚ)) := by
  rw [generateCore_eq_foldl]
  obtain ⟨hlen, hall⟩ := isRect_iff.mp hrect
  apply grid_ext
  · rw [shape_foldl, shape_of_isRect hrect]
    simp [shape]
  · intro r c hr hc
    have hsh : shape ((origins hh ww t.step).foldl (procOne t) a) = shape a :=
      shape_foldl t _ a
    have hra : r < a.length := by
      rw [length_of_shape_eq hsh] at hr
      exact hr
    have hca : c < (a.getD r []).length := by
      rw [rowlen_of_shape_eq hsh r] at hc
      exact hc
    have hrh : r < hh := hlen ▸ hra
    have hcw : c < ww := by
      rw [hall _ (getD_mem [] hra)] at hca
      exact hca
    have hp : ((r / t.step) * t.step, (c / t.step) * t.step) ∈ origins hh ww t.step :=
      mem_origins.mpr ⟨div_mul_mem_pyRange hstep hrh, div_mul_mem_pyRange hstep hcw⟩
    obtain ⟨L1, L2, hsplit, hL2⟩ := origins_split hstep hp
    have hreg : inRegion t.step ((r / t.step) * t.step, (c / t.step) * t.step) r c :=
      inRegion_own_block r c hstep
    have hnot : ∀ q ∈ L2, ¬ inRegion t.step q r c := fun q hq =>
      origins_regions_disjoint hp (hL2 q hq).2 (hL2 q hq).1 r c hreg
    rw [hsplit, cell_foldl_split t L1 L2 _ a r c hnot hra hca hreg,
      procOne_writes_zero t _ _ hg hstep (valsIn_foldl t L1 a hg hstep hvals)]
    unfold cell
    rw [replicate_getD, if_pos hrh, replicate_getD, if_pos hcw]
    norm_num

/-! Claim theorems. -/

/-- C1: for every grid, in-bounds top-left coordinate `(i, j)` and positive
step, `get_pixel_color` returns the arithmetic sum of all values in the region
`grid[i : i+step, j : j+step]` clipped to the grid bounds, floor-divided by the
full `step * step` — also for clipped edge blocks. -/
theorem get_pixel_color_is_clipped_sum_div_step_sq (t : PixelArtGenerator)
    (a : Grid) (i j : ℕ) (hstep : 0 < t.step) (hi : i < a.length)
    (hj : j < (a.getD i []).length) :
    t.get_pixel_color a i j =
      ((⌊(∑ r ∈ Finset.Ico i (min a.length (i + t.step)),
          ∑ c ∈ Finset.Ico j (min (a.getD r []).length (j + t.step)), cell a r c) /
        ((t.step : ℚ) * (t.step : ℚ))⌋ : ℤ) : ℚ) := by
  unfold PixelArtGenerator.get_pixel_color
  rw [blockSum_eq_finsetSum, pow_two]

theorem get_pixel_color_is_clipped_sum_div_step_sq_witness :
    (PixelArtGenerator.init 6 2).get_pixel_color
        [[124, 76, 24], [54, 54, 160], [89, 35, 35]] 0 2 =
      ((⌊(∑ r ∈ Finset.Ico 0 (min ([[(124 : ℚ), 76, 24], [54, 54, 160], [89, 35, 35]] : Grid).length
            (0 + (PixelArtGenerator.init 6 2).step)),
          ∑ c ∈ Finset.Ico 2 (min (([[(124 : ℚ), 76, 24], [54, 54, 160], [89, 35, 35]] : Grid).getD r []).length
            (2 + (PixelArtGenerator.init 6 2).step)),
          cell [[124, 76, 24], [54, 54, 160], [89, 35, 35]] r c) /
        (((PixelArtGenerator.init 6 2).step : ℚ) * ((PixelArtGenerator.init 6 2).step : ℚ))⌋ : ℤ) : ℚ) :=
  get_pixel_color_is_clipped_sum_div_step_sq (PixelArtGenerator.init 6 2)
    [[124, 76, 24], [54, 54, 160], [89, 35, 35]] 0 2
    (by decide) (by decide) (by decide)

/-- C2: with gradation unit `g = 255 / gradations`, `set_pixel_color` computes
`level = ⌊b / g⌋` with no clamping of the level into `[0, gradations - 1]`, then
writes `level * g / 3` into every cell of the clipped block region, for any
brightness `b`, in range or not. -/
theorem set_pixel_color_writes_unclamped_quantized_value
    (gradations pixel_step : ℕ) (a : Grid) (i j r c : ℕ) (s : ℚ)
    (hr : r < a.length) (hri : i ≤ r) (hri2 : r < i + pixel_step)
    (hc : c < (a.getD r []).length) (hcj : j ≤ c) (hcj2 : c < j + pixel_step) :
    cell ((PixelArtGenerator.init gradations pixel_step).set_pixel_color a i j s) r c =
      ((⌊s / ((255 : ℚ) / (gradations : ℚ))⌋ : ℤ) : ℚ) * ((255 : ℚ) / (gradations : ℚ)) / 3 := by
  rw [cell_set_pixel_color, if_pos ⟨hr, hri, hri2, hc, hcj, hcj2⟩]
  rfl

theorem set_pixel_color_writes_unclamped_quantized_value_witness :
    cell ((PixelArtGenerator.init 6 2).set_pixel_color
        [[(1 : ℚ), 1, 1], [1, 1, 1], [1, 1, 1]] 0 0 999) 1 1 =
      ((⌊(999 : ℚ) / ((255 : ℚ) / (6 : ℚ))⌋ : ℤ) : ℚ) * ((255 : ℚ) / (6 : ℚ)) / 3 :=
  set_pixel_color_writes_unclamped_quantized_value 6 2
    [[(1 : ℚ), 1, 1], [1, 1, 1], [1, 1, 1]] 0 0 1 1 999
    (by decide) (by decide) (by decide) (by decide) (by decide) (by decide)

/-- C4 counterexample: with `step = 0`, `gradations = 6` on the single-row grid
`[[5]]` the program fails with the `IndexError` raised at `len(img_array[1])`
before any arithmetic runs — not with a division-related or range-related
arithmetic error — so the frozen claim fails at this input. -/
theorem degenerate_config_not_always_arithmetic_error :
    runProgram 6 0 [[(5 : ℚ)]] = .error .indexError ∧
      PyError.indexError ≠ PyError.zeroDivision ∧
      PyError.indexError ≠ PyError.valueError := by
  refine ⟨by decide, by decide, by decide⟩

/-- C4 amended: with `step = 0` or `gradations = 0` the program has no explicit
guard and fails with an error propagated to the caller, namely the
`ZeroDivisionError` from `255 / gradations` when `gradations = 0`, and
otherwise the `ValueError` from `range(0, h, 0)` — except that on grids with
fewer than 2 rows the `IndexError` from `len(img_array[1])` fires even earlier,
before any arithmetic (see the counterexample). -/
theorem degenerate_config_error_identity (gradations pixel_step : ℕ) (a : Grid)
    (hdeg : pixel_step = 0 ∨ gradations = 0) :
    runProgram gradations pixel_step a =
      .error (if gradations = 0 then .zeroDivision
              else if a.length < 2 then .indexError
              else .valueError) := by
  unfold runProgram
  by_cases hg : gradations = 0
  · rw [if_pos hg, if_pos hg]
  · rw [if_neg hg, if_neg hg]
    have hs : pixel_step = 0 := hdeg.resolve_right hg
    unfold PixelArtGenerator.generate
    by_cases hl : a.length < 2
    · rw [if_pos hl, if_pos hl]
    · rw [if_neg hl, if_neg hl, if_pos]
      exact hs

theorem degenerate_config_error_identity_witness :
    runProgram 6 0 [[(1 : ℚ), 1], [1, 1]] =
      .error (if (6 : ℕ) = 0 then .zeroDivision
              else if ([[(1 : ℚ), 1], [1, 1]] : Grid).length < 2 then .indexError
              else .valueError) :=
  degenerate_config_error_identity 6 0 [[(1 : ℚ), 1], [1, 1]] (Or.inl rfl)

/-- C7: a successful `generate` produces a grid of exactly the same shape
(number of rows and each row length) as the input grid. -/
theorem generate_preserves_shape (t : PixelArtGenerator) (a b : Grid)
    (hok : t.generate a = .ok b) : shape b = shape a := by
  unfold PixelArtGenerator.generate at hok
  by_cases h1 : a.length < 2
  · rw [if_pos h1] at hok
    exact Except.noConfusion hok
  · rw [if_neg h1] at hok
    by_cases h2 : t.step = 0
    · rw [if_pos h2] at hok
      exact Except.noConfusion hok
    · rw [if_neg h2] at hok
      have hb : t.generateCore a a.length (a.getD 1 []).length = b := by
        injection hok with hb2
      rw [← hb, generateCore_eq_foldl, shape_foldl]

theorem generate_preserves_shape_witness :
    shape ([[(85 : ℚ), 85], [85, 85]] : Grid) =
      shape ([[(255 : ℚ), 255], [255, 255]] : Grid) :=
  generate_preserves_shape (PixelArtGenerator.init 6 2)
    [[255, 255], [255, 255]] [[85, 85], [85, 85]] (by decide)

/-- C8: `set_pixel_color` leaves every cell outside the clipped block region
`grid[i : i+step, j : j+step]` unchanged (and it preserves the grid's shape). -/
theorem set_pixel_color_frame_outside_block (t : PixelArtGenerator) (a : Grid)
    (i j r c : ℕ) (s : ℚ)
    (hout : ¬ (i ≤ r ∧ r < i + t.step ∧ j ≤ c ∧ c < j + t.step)) :
    cell (t.set_pixel_color a i j s) r c = cell a r c ∧
      shape (t.set_pixel_color a i j s) = shape a := by
  refine ⟨?_, shape_set_pixel_color t a i j s⟩
  rw [cell_set_pixel_color]
  split_ifs with hcnd
  · exact absurd ⟨hcnd.2.1, hcnd.2.2.1, hcnd.2.2.2.2.1, hcnd.2.2.2.2.2⟩ hout
  · rfl

theorem set_pixel_color_frame_outside_block_witness :
    cell ((PixelArtGenerator.init 6 2).set_pixel_color
        [[(1 : ℚ), 1, 1], [1, 1, 1], [1, 1, 1]] 0 0 255) 2 2 =
      cell [[(1 : ℚ), 1, 1], [1, 1, 1], [1, 1, 1]] 2 2 ∧
    shape ((PixelArtGenerator.init 6 2).set_pixel_color
        [[(1 : ℚ), 1, 1], [1, 1, 1], [1, 1, 1]] 0 0 255) =
      shape [[(1 : ℚ), 1, 1], [1, 1, 1], [1, 1, 1]] :=
  set_pixel_color_frame_outside_block (PixelArtGenerator.init 6 2)
    [[(1 : ℚ), 1, 1], [1, 1, 1], [1, 1, 1]] 0 0 2 2 255 (by decide)

/-- C9: on the 3×3 grid `[[124, 76, 24], [54, 54, 160], [89, 35, 35]]`,
sampling at `(0, 0)` returns `(124+76+54+54) // 4 = 77` with step 2 and
`124 // 1 = 124` with step 1. -/
theorem sample_concrete_cases :
    (PixelArtGenerator.init 6 2).get_pixel_color
        [[124, 76, 24], [54, 54, 160], [89, 35, 35]] 0 0 = 77 ∧
      (PixelArtGenerator.init 6 1).get_pixel_color
        [[124, 76, 24], [54, 54, 160], [89, 35, 35]] 0 0 = 124 ∧
      ⌊((124 : ℚ) + 76 + 54 + 54) / 4⌋ = 77 ∧ ⌊(124 : ℚ) / 1⌋ = 124 := by
  refine ⟨by decide, by decide, by decide, by decide⟩

/-- C10: on a grid with fewer than 2 rows, `generate` fails with an index error
before processing any block, because the width is read as `len(img_array[1])`;
on rectangular grids with at least 2 rows this is equivalent to reading the
width from row 0. -/
theorem generate_width_from_row_one (t : PixelArtGenerator) (a : Grid) :
    (a.length < 2 → t.generate a = .error .indexError) ∧
      (∀ h w, isRect a h w = true → 2 ≤ a.length → t.generate a = t.generateAlt a) := by
  constructor
  · intro hlt
    unfold PixelArtGenerator.generate
    rw [if_pos hlt]
  · intro h w hrect h2
    unfold PixelArtGenerator.generate PixelArtGenerator.generateAlt
    obtain ⟨hlen, hall⟩ := isRect_iff.mp hrect
    have hw : (a.getD 1 []).length = (a.getD 0 []).length := by
      rw [hall _ (getD_mem [] (by omega)), hall _ (getD_mem [] (by omega))]
    rw [hw]

theorem generate_width_from_row_one_witness :
    (PixelArtGenerator.init 6 2).generate [[(5 : ℚ)]] = .error .indexError ∧
      (PixelArtGenerator.init 6 2).generate [[(1 : ℚ), 2], [3, 4]] =
        (PixelArtGenerator.init 6 2).generateAlt [[(1 : ℚ), 2], [3, 4]] :=
  ⟨(generate_width_from_row_one (PixelArtGenerator.init 6 2) [[(5 : ℚ)]]).1 (by decide),
    (generate_width_from_row_one (PixelArtGenerator.init 6 2) [[(1 : ℚ), 2], [3, 4]]).2
      2 2 (by decide) (by decide)⟩

/-- C6: after a successful `generate`, every cell lying in a given visited
block's region holds an identical value — quantization is uniform per block. -/
theorem generate_blocks_uniform (t : PixelArtGenerator) (a b : Grid)
    (hok : t.generate a = .ok b) (i j : ℕ)
    (hi : i ∈ pyRange a.length t.step)
    (hj : j ∈ pyRange (a.getD 1 []).length t.step) :
    ∃ v, ∀ r c, r < b.length → c < (b.getD r []).length →
      i ≤ r → r < i + t.step → j ≤ c → c < j + t.step → cell b r c = v := by
  unfold PixelArtGenerator.generate at hok
  by_cases h1 : a.length < 2
  · rw [if_pos h1] at hok
    exact Except.noConfusion hok
  · rw [if_neg h1] at hok
    by_cases h2 : t.step = 0
    · rw [if_pos h2] at hok
      exact Except.noConfusion hok
    · rw [if_neg h2] at hok
      have hstep : 0 < t.step := Nat.pos_of_ne_zero h2
      have hb : t.generateCore a a.length (a.getD 1 []).length = b := by
        injection hok with hb2
      rw [← hb, generateCore_eq_foldl]
      have hporig : (i, j) ∈ origins a.length (a.getD 1 []).length t.step :=
        mem_origins.mpr ⟨hi, hj⟩
      obtain ⟨L1, L2, hsplit, hL2⟩ := origins_split hstep hporig
      refine ⟨((⌊t.get_pixel_color (L1.foldl (procOne t) a) i j / t.gradation⌋ : ℤ) : ℚ)
          * t.gradation / 3, ?_⟩
      intro r c hr hc hir hir2 hjc hjc2
      have hsh : shape ((origins a.length (a.getD 1 []).length t.step).foldl
          (procOne t) a) = shape a := shape_foldl t _ a
      have hra : r < a.length := by
        rw [length_of_shape_eq hsh] at hr
        exact hr
      have hca : c < (a.getD r []).length := by
        rw [rowlen_of_shape_eq hsh r] at hc
        exact hc
      have hreg : inRegion t.step (i, j) r c := ⟨hir, hir2, hjc, hjc2⟩
      have hnot : ∀ q ∈ L2, ¬ inRegion t.step q r c := fun q hq =>
        origins_regions_disjoint hporig (hL2 q hq).2 (hL2 q hq).1 r c hreg
      rw [hsplit]
      exact cell_foldl_split t L1 L2 (i, j) a r c hnot hra hca hreg

theorem generate_blocks_uniform_witness :
    ∃ v, ∀ r c, r < ([[(85 : ℚ), 85], [85, 85]] : Grid).length →
      c < (([[(85 : ℚ), 85], [85, 85]] : Grid).getD r []).length →
      0 ≤ r → r < 0 + (PixelArtGenerator.init 6 2).step →
      0 ≤ c → c < 0 + (PixelArtGenerator.init 6 2).step →
      cell [[(85 : ℚ), 85], [85, 85]] r c = v :=
  generate_blocks_uniform (PixelArtGenerator.init 6 2)
    [[255, 255], [255, 255]] [[85, 85], [85, 85]] (by decide) 0 0
    (by decide) (by decide)

/-- C5 counterexample: on the 1×1 grid `[[4]]` with step 2 every cell of the
block region at `(0, 0)` (clipped to the single cell) holds the value 4, yet
`get_pixel_color` returns `⌊4 / 4⌋ = 1 ≠ 4` — on clipped edge blocks the
sample is not the common value. -/
theorem sample_uniform_clipped_counterexample :
    (∀ r c, r < ([[(4 : ℚ)]] : Grid).length →
        c < (([[(4 : ℚ)]] : Grid).getD r []).length → cell [[(4 : ℚ)]] r c = 4) ∧
      (PixelArtGenerator.init 6 2).get_pixel_color [[(4 : ℚ)]] 0 0 = 1 ∧
      (1 : ℚ) ≠ 4 := by
  refine ⟨?_, by decide, by decide⟩
  intro r c hr hc
  have hr0 : r = 0 := Nat.lt_one_iff.mp (by simpa using hr)
  subst hr0
  have hc0 : c = 0 := Nat.lt_one_iff.mp (by simpa using hc)
  subst hc0
  decide

/-- C5 amended: on a block fully contained in the grid whose cells all hold the
same value `v`, `get_pixel_color` returns `v` exactly, up to integer truncation
(it returns `⌊v⌋`); for clipped edge blocks this fails, see the
counterexample. -/
theorem sample_uniform_full_block (t : PixelArtGenerator) (a : Grid) (i j : ℕ)
    (v : ℚ) (hstep : 0 < t.step) (hrows : i + t.step ≤ a.length)
    (hcols : ∀ r, i ≤ r → r < i + t.step → j + t.step ≤ (a.getD r []).length)
    (huni : ∀ r c, i ≤ r → r < i + t.step → j ≤ c → c < j + t.step →
      cell a r c = v) :
    t.get_pixel_color a i j = ((⌊v⌋ : ℤ) : ℚ) := by
  unfold PixelArtGenerator.get_pixel_color
  rw [blockSum_eq_finsetSum, min_eq_right hrows]
  have hinner : ∀ r ∈ Finset.Ico i (i + t.step),
      (∑ c ∈ Finset.Ico j (min (a.getD r []).length (j + t.step)), cell a r c)
        = (t.step : ℚ) * v := by
    intro r hr
    rw [Finset.mem_Ico] at hr
    rw [min_eq_right (hcols r hr.1 hr.2)]
    have hconst : (∑ c ∈ Finset.Ico j (j + t.step), cell a r c)
        = ∑ _c ∈ Finset.Ico j (j + t.step), v :=
      Finset.sum_congr rfl fun c hc => by
        rw [Finset.mem_Ico] at hc
        exact huni r c hr.1 hr.2 hc.1 hc.2
    rw [hconst, Finset.sum_const, Nat.card_Ico]
    have hjs : j + t.step - j = t.step := by omega
    rw [hjs, nsmul_eq_mul]
  have houter : (∑ r ∈ Finset.Ico i (i + t.step),
      ∑ c ∈ Finset.Ico j (min (a.getD r []).length (j + t.step)), cell a r c)
        = ∑ _r ∈ Finset.Ico i (i + t.step), (t.step : ℚ) * v :=
    Finset.sum_congr rfl hinner
  rw [houter, Finset.sum_const, Nat.card_Ico]
  have his : i + t.step - i = t.step := by omega
  rw [his, nsmul_eq_mul]
  have hs0 : ((t.step : ℚ)) ≠ 0 := Nat.cast_ne_zero.mpr hstep.ne'
  have he : (t.step : ℚ) * ((t.step : ℚ) * v) / ((t.step : ℚ) ^ 2) = v := by
    field_simp
    ring
  rw [he]

theorem sample_uniform_full_block_witness :
    (PixelArtGenerator.init 6 2).get_pixel_color
        [[(7 : ℚ) / 2, 7 / 2], [7 / 2, 7 / 2]] 0 0 = ((⌊(7 : ℚ) / 2⌋ : ℤ) : ℚ) :=
  sample_uniform_full_block (PixelArtGenerator.init 6 2)
    [[(7 : ℚ) / 2, 7 / 2], [7 / 2, 7 / 2]] 0 0 (7 / 2)
    (by decide) (by decide)
    (fun r h0 h2 => by
      have h2' : r < 2 := h2
      interval_cases r <;> decide)
    (fun r c h0 h2 h3 h4 => by
      have h2' : r < 2 := h2
      have h4' : c < 2 := h4
      interval_cases r <;> interval_cases c <;> decide)

/-- C3 counterexample: with gradations 6 and step 2, one pass sends the all-255
2×2 grid to the all-85 grid, but a second pass with the same config sends the
all-85 grid to the all-`85/3` grid, so the second pass further changes the
output of the first. -/
theorem generate_second_pass_changes_grid :
    runProgram 6 2 [[255, 255], [255, 255]] = .ok [[85, 85], [85, 85]] ∧
      runProgram 6 2 [[85, 85], [85, 85]] =
        .ok [[85 / 3, 85 / 3], [85 / 3, 85 / 3]] ∧
      ([[(85 : ℚ) / 3, 85 / 3], [85 / 3, 85 / 3]] : Grid) ≠ [[85, 85], [85, 85]] := by
  refine ⟨by decide, by decide, by decide⟩

/-- C3 amended: `run` is not idempotent in general — the `/ 3` scaling
re-quantizes any nonzero level to a lower one (counterexample: all-255 grid).
It is idempotent on rectangular grids whose values all lie in
`[0, gradation_unit)`: one pass then writes level 0, i.e. the value 0, into
every cell, and a second pass with the same config maps that output to
itself. -/
theorem generate_idempotent_on_low_range_grids (gradations pixel_step : ℕ)
    (a b : Grid) (hh ww : ℕ) (hrect : isRect a hh ww = true) (h2 : 2 ≤ hh)
    (hvals : valsIn a ((255 : ℚ) / (gradations : ℚ)))
    (hok : runProgram gradations pixel_step a = .ok b) :
    runProgram gradations pixel_step b = .ok b := by
  unfold runProgram at hok ⊢
  by_cases hg : gradations = 0
  · rw [if_pos hg] at hok
    exact Except.noConfusion hok
  · rw [if_neg hg] at hok ⊢
    unfold PixelArtGenerator.generate at hok ⊢
    obtain ⟨hlen, hall⟩ := isRect_iff.mp hrect
    by_cases hl : a.length < 2
    · rw [if_pos hl] at hok
      exact Except.noConfusion hok
    · rw [if_neg hl] at hok
      by_cases hs : (PixelArtGenerator.init gradations pixel_step).step = 0
      · rw [if_pos hs] at hok
        exact Except.noConfusion hok
      · rw [if_neg hs] at hok
        have hstep : 0 < (PixelArtGenerator.init gradations pixel_step).step :=
          Nat.pos_of_ne_zero hs
        have hgq : 0 < (PixelArtGenerator.init gradations pixel_step).gradation := by
          show (0 : ℚ) < 255 / (gradations : ℚ)
          apply div_pos (by norm_num)
          exact_mod_cast Nat.pos_of_ne_zero hg
        have hw1 : (a.getD 1 []).length = ww := hall _ (getD_mem [] (by omega))
        have hb : b = List.replicate hh (List.replicate ww (0 : ℚ)) := by
          injection hok with hok2
          rw [← hok2, hlen, hw1]
          exact generateCore_zero _ a hh ww hgq hstep hrect hvals
        rw [hb]
        have hlenZ : (List.replicate hh (List.replicate ww (0 : ℚ))).length = hh :=
          List.length_replicate ..
        rw [if_neg (by rw [hlenZ]; omega)]
        rw [if_neg hs]
        have hwZ : ((List.replicate hh (List.replicate ww (0 : ℚ))).getD 1 []).length
            = ww := by
          rw [replicate_getD, if_pos (by omega)]
          exact List.length_replicate ..
        rw [hlenZ, hwZ, generateCore_zero _ _ hh ww hgq hstep (isRect_replicate hh ww)
          (valsIn_replicate_zero hgq hh ww)]

theorem generate_idempotent_on_low_range_grids_witness :
    runProgram 6 2 [[(0 : ℚ), 0], [0, 0]] = .ok [[(0 : ℚ), 0], [0, 0]] :=
  generate_idempotent_on_low_range_grids 6 2 [[(1 : ℚ), 1], [1, 1]]
    [[(0 : ℚ), 0], [0, 0]] 2 2 (by decide) (by decide) (by decide) (by decide)

/-! The doctests of `filter.py`, replayed against the embedding. -/

theorem doctest_get_pixel_color_ones :
    (PixelArtGenerator.init 6 2).get_pixel_color
      (List.replicate 4 (List.replicate 4 1)) 0 0 = 1 := by decide

theorem doctest_get_pixel_color_step2 :
    (PixelArtGenerator.init 6 2).get_pixel_color
      [[124, 76, 24], [54, 54, 160], [89, 35, 35]] 0 0 = 77 := by decide

theorem doctest_get_pixel_color_step1 :
    (PixelArtGenerator.init 6 1).get_pixel_color
      [[124, 76, 24], [54, 54, 160], [89, 35, 35]] 0 0 = 124 := by decide

theorem doctest_set_pixel_color_corner :
    (PixelArtGenerator.init 6 2).set_pixel_color
      (List.replicate 4 (List.replicate 4 1)) 0 0 255 =
      [[85, 85, 1, 1], [85, 85, 1, 1], [1, 1, 1, 1], [1, 1, 1, 1]] := by decide

theorem doctest_set_pixel_color_middle :
    (PixelArtGenerator.init 6 10).set_pixel_color
      (List.replicate 4 (List.replicate 4 1)) 2 2 255 =
      [[1, 1, 1, 1], [1, 1, 1, 1], [1, 1, 85, 85], [1, 1, 85, 85]] := by decide

theorem doctest_set_pixel_color_zero_block :
    (PixelArtGenerator.init 1 3).set_pixel_color
      (List.replicate 6 (List.replicate 6 1)) 2 2 0 =
      [[1, 1, 1, 1, 1, 1], [1, 1, 1, 1, 1, 1], [1, 1, 0, 0, 0, 1],
       [1, 1, 0, 0, 0, 1], [1, 1, 0, 0, 0, 1], [1, 1, 1, 1, 1, 1]] := by decide

end PixelArt
